import Mathlib

/-!
# Verification of the sagemaker-workshop notebooks' data-wrangling code

Shallow embedding of the pure computations in
`tensorflow-workshop/1_tf_image_classification_birds.ipynb` (the
train/val/test dataframe splitter and the dataframe preparation pipeline)
and `tensorflow-workshop/3_tf_sm_batch_ic.ipynb` (the batch-prediction
result aggregation loop), together with proofs of the specified
properties.

Modelling conventions:
* A pandas dataframe is a list of rows; each row carries its pandas index
  label (`idx`) explicitly, since `df.drop(ix)` drops by index label.
* `df.sample(frac=f)` draws `round(f * len(df))` rows at random without
  replacement.  Randomness is modelled by quantifying over an arbitrary
  sampler `S`; `ValidSampler S` states exactly what pandas guarantees:
  the result is a subsequence of the input of the requested size.
* Python floats are modelled by rationals; Python's `round` (banker's
  rounding, round-half-to-even) is `pyRound`.
-/

namespace Workshop

/-- Python's built-in `round` on a rational: round half to even.
This is the rounding used by `pandas.sample(frac=...)`, which computes
`n = round(frac * len(df))`. -/
def pyRound (q : ℚ) : ℤ :=
  let f : ℤ := ⌊q⌋
  let r : ℚ := q - (f : ℚ)
  if r < 1/2 then f
  else if 1/2 < r then f + 1
  else if f % 2 = 0 then f else f + 1

/-- Number of rows drawn by `df.sample(frac=frac)` from a frame of `n` rows:
`round(frac * n)`. -/
def sampleSize (frac : ℚ) (n : ℕ) : ℕ :=
  (pyRound (frac * (n : ℚ))).toNat

/-- An abstract source of randomness for `DataFrame.sample`: given the rows
and the requested size, it returns the drawn rows. -/
def Sampler (α : Type) : Type := List α → ℕ → List α

/-- What pandas guarantees about `sample(n)` when `n ≤ len(df)`: the drawn
rows are a subsequence of the input (sampling is without replacement) of
exactly the requested size. -/
def ValidSampler {α : Type} (S : Sampler α) : Prop :=
  ∀ (l : List α) (n : ℕ), n ≤ l.length → (S l n).Sublist l ∧ (S l n).length = n

/-- A deterministic sampler (take the first `n` rows); it satisfies
`ValidSampler` and serves as a concrete instance for witnesses. -/
def takeSampler {α : Type} : Sampler α := fun l n => l.take n

/-- A row of the dataframe handed to `split_to_train_val_test`: the pandas
index label, the value in the label column, and the rest of the row. -/
structure Row where
  idx : ℕ
  label : String
  payload : String
deriving DecidableEq, Repr

/-- Model of `df.drop(ix)`: remove every row whose index label occurs in `ix`. -/
def dropByIndex {α : Type} (idxOf : α → ℕ) (df : List α) (ix : List ℕ) : List α :=
  df.filter (fun r => decide (idxOf r ∉ ix))

/-- Fuel-indexed helper for `uniqueFirst` (structural recursion on the fuel
so that the definition reduces definitionally). -/
def uniqueFirstF {β : Type} [DecidableEq β] : ℕ → List β → List β
  | _, [] => []
  | 0, _ :: _ => []
  | n+1, a :: l => a :: uniqueFirstF n (l.filter (fun b => decide (b ≠ a)))

/-- Model of `df[col].unique()`: the distinct values of a column in order of first
appearance. -/
def uniqueFirst {β : Type} [DecidableEq β] (l : List β) : List β :=
  uniqueFirstF l.length l

/-- The body of the per-label loop of `split_to_train_val_test`:

    lbl_train_df        = lbl_df.sample(frac=splits[0])
    lbl_val_and_test_df = lbl_df.drop(lbl_train_df.index)
    lbl_test_df         = lbl_val_and_test_df.sample(frac=splits[2]/(splits[1] + splits[2]))
    lbl_val_df          = lbl_val_and_test_df.drop(lbl_test_df.index)

returning `(lbl_train_df, lbl_val_df, lbl_test_df)`. -/
def splitLabel {α : Type} (S : Sampler α) (idxOf : α → ℕ) (splits : ℚ × ℚ × ℚ)
    (lbl_df : List α) : List α × List α × List α :=
  let lbl_train := S lbl_df (sampleSize splits.1 lbl_df.length)
  let lbl_vt := dropByIndex idxOf lbl_df (lbl_train.map idxOf)
  let lbl_test := S lbl_vt (sampleSize (splits.2.2 / (splits.2.1 + splits.2.2)) lbl_vt.length)
  let lbl_val := dropByIndex idxOf lbl_vt (lbl_test.map idxOf)
  (lbl_train, lbl_val, lbl_test)

/-- The splitter `split_to_train_val_test(df, label_column, splits)`: iterate over the
unique labels, split the rows of each label with `splitLabel`, append the
per-label pieces, and shuffle each result on the way out with
`sample(frac=1)`. -/
def split_to_train_val_test {α : Type} (S : Sampler α) (labelOf : α → String)
    (idxOf : α → ℕ) (df : List α) (splits : ℚ × ℚ × ℚ) :
    List α × List α × List α :=
  let labels := uniqueFirst (df.map labelOf)
  let parts := labels.map
    (fun lbl => splitLabel S idxOf splits (df.filter (fun r => decide (labelOf r = lbl))))
  let train := (parts.map (fun p => p.1)).flatten
  let val := (parts.map (fun p => p.2.1)).flatten
  let test := (parts.map (fun p => p.2.2)).flatten
  (S train (sampleSize 1 train.length),
   S val (sampleSize 1 val.length),
   S test (sampleSize 1 test.length))

/-- The split ratios used throughout the notebook. -/
def SPLIT_RATIOS : ℚ × ℚ × ℚ := (7/10, 2/10, 1/10)

/-! ## Arithmetic facts about `pyRound` and `sampleSize` -/

theorem pyRound_le_of_le {q : ℚ} {n : ℕ} (h : q ≤ (n : ℚ)) : pyRound q ≤ (n : ℤ) := by
  have hfl : ⌊q⌋ ≤ (n : ℤ) := by
    have := Int.floor_le_floor h
    rwa [Int.floor_natCast] at this
  unfold pyRound
  simp only
  split_ifs with hlt hgt hev
  · exact hfl
  all_goals {
    have hq : (1 : ℚ)/2 ≤ q - (⌊q⌋ : ℚ) := le_of_not_lt hlt
    have hflt : (⌊q⌋ : ℚ) < (n : ℚ) := by linarith
    have : ⌊q⌋ < (n : ℤ) := by exact_mod_cast hflt
    omega }

theorem pyRound_natCast (n : ℕ) : pyRound ((n : ℚ)) = (n : ℤ) := by
  unfold pyRound
  rw [Int.floor_natCast]
  norm_num

theorem sampleSize_le {frac : ℚ} (h1 : frac ≤ 1) (n : ℕ) : sampleSize frac n ≤ n := by
  unfold sampleSize
  have h : frac * (n : ℚ) ≤ (n : ℚ) := mul_le_of_le_one_left (Nat.cast_nonneg n) h1
  exact Int.toNat_le.mpr (pyRound_le_of_le h)

theorem sampleSize_one (n : ℕ) : sampleSize 1 n = n := by
  unfold sampleSize
  rw [one_mul, pyRound_natCast]
  simp

theorem sampleSize_zero (frac : ℚ) : sampleSize frac 0 = 0 := by
  unfold sampleSize pyRound
  norm_num

/-! ## Facts about samplers -/

theorem validSampler_takeSampler {α : Type} : ValidSampler (takeSampler (α := α)) := by
  intro l n hn
  exact ⟨List.take_sublist n l, (List.length_take n l).trans (min_eq_left hn)⟩

/-- The shuffle `sample(frac=1)` (the shuffle on the way out of the splitter) returns
exactly the input rows in the model, where a sampler's output is a
subsequence of its input. -/
theorem sampler_full_length {α : Type} {S : Sampler α} (hS : ValidSampler S)
    (l : List α) : S l (sampleSize 1 l.length) = l := by
  rw [sampleSize_one]
  exact ((hS l l.length le_rfl).1).eq_of_length ((hS l l.length le_rfl).2)

/-! ## `df.drop(sample.index)` undoes the sample when indices are distinct -/

/-- If `s` is a subsequence of `l` and the index labels of `l` are pairwise
distinct, then dropping the index labels of `s` from `l` leaves exactly the
rows not drawn: `l` is a permutation of `s ++ l.drop(s.index)`. -/
theorem perm_sample_append_drop {α : Type} (idxOf : α → ℕ) {s l : List α}
    (hsub : s.Sublist l) (hnd : (l.map idxOf).Nodup) :
    l.Perm (s ++ dropByIndex idxOf l (s.map idxOf)) := by
  induction hsub with
  | slnil => simp [dropByIndex]
  | @cons s l₂ a hsub ih =>
      rw [List.map_cons, List.nodup_cons] at hnd
      have ha : idxOf a ∉ s.map idxOf := fun hmem => hnd.1 ((hsub.map idxOf).subset hmem)
      have hdrop : dropByIndex idxOf (a :: l₂) (s.map idxOf)
          = a :: dropByIndex idxOf l₂ (s.map idxOf) := by
        unfold dropByIndex
        rw [List.filter_cons_of_pos (by simpa using ha)]
      rw [hdrop]
      exact ((ih hnd.2).cons a).trans List.perm_middle.symm
  | @cons₂ s₁ l₂ a hsub ih =>
      rw [List.map_cons, List.nodup_cons] at hnd
      have hne : ∀ r ∈ l₂, idxOf r ≠ idxOf a := by
        intro r hr heq
        exact hnd.1 (heq ▸ List.mem_map_of_mem idxOf hr)
      have hdrop : dropByIndex idxOf (a :: l₂) ((a :: s₁).map idxOf)
          = dropByIndex idxOf l₂ (s₁.map idxOf) := by
        unfold dropByIndex
        rw [List.map_cons, List.filter_cons_of_neg (by simp)]
        refine List.filter_congr (fun r hr => ?_)
        rw [decide_eq_decide, List.mem_cons, not_or]
        exact ⟨fun h => h.2, fun h => ⟨hne r hr, h⟩⟩
      rw [hdrop]
      exact (ih hnd.2).cons a

/-! ## Facts about `uniqueFirst` (pandas `unique`) -/

theorem uniqueFirstF_of_le {β : Type} [DecidableEq β] :
    ∀ (n m : ℕ) (l : List β), l.length ≤ n → l.length ≤ m →
      uniqueFirstF n l = uniqueFirstF m l := by
  intro n
  induction n with
  | zero =>
      intro m l hn _
      rw [List.length_eq_zero.mp (Nat.le_zero.mp hn)]
      cases m <;> rfl
  | succ n ih =>
      intro m l hn hm
      match l with
      | [] => cases m <;> rfl
      | a :: l =>
        match m with
        | 0 => simp at hm
        | m + 1 =>
          have hf := List.length_filter_le (fun b => decide (b ≠ a)) l
          simp only [List.length_cons] at hn hm
          simp only [uniqueFirstF]
          rw [ih m _ (by omega) (by omega)]

theorem uniqueFirst_nil {β : Type} [DecidableEq β] :
    uniqueFirst ([] : List β) = [] := rfl

theorem uniqueFirst_cons {β : Type} [DecidableEq β] (a : β) (l : List β) :
    uniqueFirst (a :: l)
      = a :: uniqueFirst (l.filter (fun b => decide (b ≠ a))) := by
  unfold uniqueFirst
  simp only [List.length_cons, uniqueFirstF]
  congr 1
  exact uniqueFirstF_of_le l.length _ _ (List.length_filter_le _ l) le_rfl

theorem uniqueFirst_sound {β : Type} [DecidableEq β] :
    ∀ (n : ℕ) (l : List β), l.length ≤ n →
      (uniqueFirst l).Nodup ∧ ∀ b, b ∈ uniqueFirst l ↔ b ∈ l := by
  intro n
  induction n with
  | zero =>
      intro l hl
      rw [List.length_eq_zero.mp (Nat.le_zero.mp hl)]
      simp [uniqueFirst_nil]
  | succ n ih =>
      intro l hl
      match l with
      | [] => simp [uniqueFirst_nil]
      | a :: t =>
        have hfl : (t.filter (fun b => decide (b ≠ a))).length ≤ n := by
          have := List.length_filter_le (fun b => decide (b ≠ a)) t
          simp only [List.length_cons] at hl
          omega
        obtain ⟨hnd, hmem⟩ := ih _ hfl
        rw [uniqueFirst_cons]
        constructor
        · rw [List.nodup_cons]
          refine ⟨fun hmem_a => ?_, hnd⟩
          have := (List.mem_filter.mp ((hmem a).mp hmem_a)).2
          simp at this
        · intro b
          rw [List.mem_cons, hmem b, List.mem_cons]
          constructor
          · rintro (rfl | hbf)
            · exact Or.inl rfl
            · exact Or.inr (List.mem_filter.mp hbf).1
          · rintro (rfl | hbt)
            · exact Or.inl rfl
            · by_cases hba : b = a
              · exact Or.inl hba
              · exact Or.inr (List.mem_filter.mpr ⟨hbt, by simp [hba]⟩)

theorem uniqueFirst_nodup {β : Type} [DecidableEq β] (l : List β) :
    (uniqueFirst l).Nodup :=
  (uniqueFirst_sound l.length l le_rfl).1

theorem mem_uniqueFirst {β : Type} [DecidableEq β] {l : List β} {b : β} :
    b ∈ uniqueFirst l ↔ b ∈ l :=
  (uniqueFirst_sound l.length l le_rfl).2 b

/-! ## Partitioning a dataframe by the distinct values of its label column -/

/-- A dataframe is, up to permutation, the concatenation over its distinct
labels of the rows carrying each label. -/
theorem perm_partition_aux {α : Type} (labelOf : α → String) :
    ∀ (n : ℕ) (df : List α), df.length ≤ n →
      df.Perm (((uniqueFirst (df.map labelOf)).map
        (fun lbl => df.filter (fun r => decide (labelOf r = lbl)))).flatten) := by
  intro n
  induction n with
  | zero =>
      intro df hl
      rw [List.length_eq_zero.mp (Nat.le_zero.mp hl)]
      simp [uniqueFirst_nil]
  | succ n ih =>
      intro df hl
      match df with
      | [] => simp [uniqueFirst_nil]
      | a :: l =>
        simp only [List.length_cons] at hl
        set la := labelOf a with hla
        -- the remaining rows whose label differs from that of `a`
        set l' := l.filter (fun r => decide (labelOf r ≠ la)) with hl'
        have hmapfl : (l.map labelOf).filter (fun b => decide (b ≠ la))
            = l'.map labelOf := by
          rw [hl', List.filter_map]
          rfl
        have hlen' : l'.length ≤ n := by
          rw [hl']
          have := List.length_filter_le (fun r => decide (labelOf r ≠ la)) l
          omega
        have IH := ih l' hlen'
        rw [List.map_cons, uniqueFirst_cons, hmapfl]
        rw [List.map_cons, List.flatten_cons]
        rw [List.filter_cons_of_pos (by simp)]
        -- rows of `a :: l` labelled `b ≠ la` are exactly rows of `l'` labelled `b`
        have hfilter_eq : ∀ b ∈ uniqueFirst (l'.map labelOf),
            (a :: l).filter (fun r => decide (labelOf r = b))
              = l'.filter (fun r => decide (labelOf r = b)) := by
          intro b hb
          obtain ⟨r', hr', hlb⟩ := List.mem_map.mp (mem_uniqueFirst.mp hb)
          have hbne : b ≠ la := by
            have := (List.mem_filter.mp hr').2
            simp only [decide_eq_true_eq] at this
            exact hlb ▸ this
          rw [List.filter_cons_of_neg (by
            simp only [decide_eq_true_eq]
            rw [← hla]
            exact fun h => hbne h.symm)]
          rw [hl', List.filter_filter]
          refine (List.filter_congr (fun r _ => ?_)).symm
          by_cases hrb : labelOf r = b
          · simp [hrb, hbne]
          · simp [hrb]
        rw [List.map_congr_left hfilter_eq]
        refine List.Perm.cons a ?_
        refine ((List.filter_append_perm (fun r => decide (labelOf r = la)) l).symm.trans ?_)
        refine List.Perm.append_left _ ?_
        have : l.filter (fun r => !decide (labelOf r = la)) = l' := by
          rw [hl']
          exact List.filter_congr (fun r _ => by simp [decide_not])
        rw [this]
        exact IH

theorem perm_partition {α : Type} (labelOf : α → String) (df : List α) :
    df.Perm (((uniqueFirst (df.map labelOf)).map
      (fun lbl => df.filter (fun r => decide (labelOf r = lbl)))).flatten) :=
  perm_partition_aux labelOf df.length df le_rfl

/-! ## Gluing per-label splits together -/

/-- Concatenating the per-label train, val and test pieces separately is a
permutation of concatenating each label's three pieces together. -/
theorem flatten_parts_perm {α : Type} [DecidableEq α]
    (ps : List (List α × List α × List α)) :
    ((ps.map (fun p => p.1 ++ p.2.1 ++ p.2.2)).flatten).Perm
      ((ps.map (fun p => p.1)).flatten ++ (ps.map (fun p => p.2.1)).flatten
        ++ (ps.map (fun p => p.2.2)).flatten) := by
  induction ps with
  | nil => simp
  | cons p ps ih =>
      simp only [List.map_cons, List.flatten_cons]
      refine List.perm_iff_count.mpr (fun x => ?_)
      have hc := List.perm_iff_count.mp ih x
      simp only [List.count_append] at hc ⊢
      omega

theorem flatten_perm_of_pointwise {α β : Type} {labels : List β} {f g : β → List α}
    (h : ∀ b ∈ labels, (f b).Perm (g b)) :
    ((labels.map f).flatten).Perm ((labels.map g).flatten) := by
  induction labels with
  | nil => simp
  | cons b t ih =>
      simp only [List.map_cons, List.flatten_cons]
      exact (h b (List.mem_cons_self b t)).append
        (ih (fun b' hb' => h b' (List.mem_cons_of_mem b hb')))

/-- Flattening a map all of whose entries are empty except (at most) the one
at `lbl` yields that entry. -/
theorem flatten_map_eq_single {β γ : Type} {labels : List β}
    (hnd : labels.Nodup) {lbl : β} (hmem : lbl ∈ labels) (h : β → List γ)
    (hz : ∀ b ∈ labels, b ≠ lbl → h b = []) :
    (labels.map h).flatten = h lbl := by
  induction labels with
  | nil => cases hmem
  | cons a t ih =>
      rw [List.nodup_cons] at hnd
      rw [List.map_cons, List.flatten_cons]
      by_cases ha : a = lbl
      · subst ha
        have hzt : ∀ b ∈ t, h b = [] := fun b hb =>
          hz b (List.mem_cons_of_mem a hb) (fun hbl => hnd.1 (hbl ▸ hb))
        have ht : (t.map h).flatten = [] := by
          rw [List.flatten_eq_nil_iff]
          intro x hx
          obtain ⟨b, hb, rfl⟩ := List.mem_map.mp hx
          exact hzt b hb
        rw [ht, List.append_nil]
      · rw [hz a (List.mem_cons_self a t) ha, List.nil_append]
        exact ih hnd.2 ((List.mem_cons.mp hmem).resolve_left (fun hl => ha hl.symm))
          (fun b hb hbl => hz b (List.mem_cons_of_mem a hb) hbl)

/-! ## The per-label split -/

/-- Bounds needed of the split ratios for `sample(frac=...)` not to raise:
each of the two fractions actually passed to `sample` lies in `[0, 1]`. -/
def RatioBounds (splits : ℚ × ℚ × ℚ) : Prop :=
  splits.1 ≤ 1 ∧ splits.2.2 / (splits.2.1 + splits.2.2) ≤ 1

theorem ratioBounds_SPLIT_RATIOS : RatioBounds SPLIT_RATIOS := by
  constructor <;> norm_num [SPLIT_RATIOS]

/-- The per-label loop body partitions the rows of one label, drawing
`round(splits[0] * n)` rows for train and
`round(splits[2]/(splits[1]+splits[2]) * (n - |train|))` of the remainder
for test, the rest being val. -/
theorem splitLabel_spec {α : Type} {S : Sampler α} (hS : ValidSampler S)
    (idxOf : α → ℕ) {splits : ℚ × ℚ × ℚ} (hb : RatioBounds splits)
    (lbl_df : List α) (hnd : (lbl_df.map idxOf).Nodup) :
    lbl_df.Perm ((splitLabel S idxOf splits lbl_df).1
      ++ (splitLabel S idxOf splits lbl_df).2.1
      ++ (splitLabel S idxOf splits lbl_df).2.2) ∧
    (splitLabel S idxOf splits lbl_df).1.length = sampleSize splits.1 lbl_df.length ∧
    (splitLabel S idxOf splits lbl_df).2.2.length
      = sampleSize (splits.2.2 / (splits.2.1 + splits.2.2))
          (lbl_df.length - sampleSize splits.1 lbl_df.length) := by
  obtain ⟨hb1, hb2⟩ := hb
  unfold splitLabel
  simp only
  set ntr := sampleSize splits.1 lbl_df.length with hntr
  have htr_le : ntr ≤ lbl_df.length := sampleSize_le hb1 _
  obtain ⟨htr_sub, htr_len⟩ := hS lbl_df ntr htr_le
  set tr := S lbl_df ntr with htr
  set vt := dropByIndex idxOf lbl_df (tr.map idxOf) with hvt
  have hperm1 : lbl_df.Perm (tr ++ vt) := perm_sample_append_drop idxOf htr_sub hnd
  have hvt_len : vt.length = lbl_df.length - ntr := by
    have := hperm1.length_eq
    rw [List.length_append, htr_len] at this
    omega
  have hvt_nd : (vt.map idxOf).Nodup := by
    refine List.Nodup.sublist ?_ hnd
    exact List.Sublist.map idxOf (by rw [hvt]; exact List.filter_sublist lbl_df)
  set nte := sampleSize (splits.2.2 / (splits.2.1 + splits.2.2)) vt.length with hnte
  have hte_le : nte ≤ vt.length := sampleSize_le hb2 _
  obtain ⟨hte_sub, hte_len⟩ := hS vt nte hte_le
  set te := S vt nte with hte
  set va := dropByIndex idxOf vt (te.map idxOf) with hva
  have hperm2 : vt.Perm (te ++ va) := perm_sample_append_drop idxOf hte_sub hvt_nd
  refine ⟨?_, htr_len, by rw [hte_len, hnte, hvt_len]⟩
  refine hperm1.trans ?_
  refine (List.Perm.append_left tr hperm2).trans ?_
  refine (List.Perm.append_left tr List.perm_append_comm).trans ?_
  rw [List.append_assoc]

/-! ## The whole splitter -/

/-- Under a valid sampler the closing `sample(frac=1)` shuffles are
identities, so the splitter returns the concatenations of the per-label
pieces. -/
theorem split_eq_parts {α : Type} {S : Sampler α} (hS : ValidSampler S)
    (labelOf : α → String) (idxOf : α → ℕ) (df : List α) (splits : ℚ × ℚ × ℚ) :
    split_to_train_val_test S labelOf idxOf df splits
      = ((((uniqueFirst (df.map labelOf)).map
            (fun lbl => splitLabel S idxOf splits
              (df.filter (fun r => decide (labelOf r = lbl))))).map
          (fun p => p.1)).flatten,
         (((uniqueFirst (df.map labelOf)).map
            (fun lbl => splitLabel S idxOf splits
              (df.filter (fun r => decide (labelOf r = lbl))))).map
          (fun p => p.2.1)).flatten,
         (((uniqueFirst (df.map labelOf)).map
            (fun lbl => splitLabel S idxOf splits
              (df.filter (fun r => decide (labelOf r = lbl))))).map
          (fun p => p.2.2)).flatten) := by
  unfold split_to_train_val_test
  simp only
  rw [sampler_full_length hS, sampler_full_length hS, sampler_full_length hS]

/-- The three outputs of the splitter are, taken together, a permutation of
the input dataframe (distinct indices assumed). -/
theorem split_perm {α : Type} [DecidableEq α] {S : Sampler α} (hS : ValidSampler S)
    (labelOf : α → String) (idxOf : α → ℕ) (df : List α)
    (hnd : (df.map idxOf).Nodup) {splits : ℚ × ℚ × ℚ} (hb : RatioBounds splits) :
    df.Perm ((split_to_train_val_test S labelOf idxOf df splits).1
      ++ (split_to_train_val_test S labelOf idxOf df splits).2.1
      ++ (split_to_train_val_test S labelOf idxOf df splits).2.2) := by
  rw [split_eq_parts hS]
  refine (perm_partition labelOf df).trans ?_
  refine (flatten_perm_of_pointwise
    (g := fun lbl => (splitLabel S idxOf splits
        (df.filter (fun r => decide (labelOf r = lbl)))).1
      ++ (splitLabel S idxOf splits
        (df.filter (fun r => decide (labelOf r = lbl)))).2.1
      ++ (splitLabel S idxOf splits
        (df.filter (fun r => decide (labelOf r = lbl)))).2.2) ?_).trans ?_
  · intro lbl _
    have hsub : ((df.filter (fun r => decide (labelOf r = lbl))).map idxOf).Sublist
        (df.map idxOf) := List.Sublist.map idxOf (List.filter_sublist df)
    exact (splitLabel_spec hS idxOf hb _ (List.Nodup.sublist hsub hnd)).1
  · have hmm : (uniqueFirst (df.map labelOf)).map
        (fun lbl => (splitLabel S idxOf splits
            (df.filter (fun r => decide (labelOf r = lbl)))).1
          ++ (splitLabel S idxOf splits
            (df.filter (fun r => decide (labelOf r = lbl)))).2.1
          ++ (splitLabel S idxOf splits
            (df.filter (fun r => decide (labelOf r = lbl)))).2.2)
        = ((uniqueFirst (df.map labelOf)).map
            (fun lbl => splitLabel S idxOf splits
              (df.filter (fun r => decide (labelOf r = lbl))))).map
          (fun p => p.1 ++ p.2.1 ++ p.2.2) := by
      rw [List.map_map]
      rfl
    rw [hmm]
    exact flatten_parts_perm _

/-! ## Extracting the rows of one label from the splitter's outputs -/

theorem filter_label_flatten_mem {α : Type} (labelOf : α → String)
    {labels : List String} (hnd : labels.Nodup) (parts : String → List α)
    (hlab : ∀ l' ∈ labels, ∀ r ∈ parts l', labelOf r = l')
    {lbl : String} (hmem : lbl ∈ labels) :
    ((labels.map parts).flatten).filter (fun r => decide (labelOf r = lbl))
      = parts lbl := by
  rw [List.filter_flatten, List.map_map]
  rw [flatten_map_eq_single hnd hmem
    (List.filter (fun r => decide (labelOf r = lbl)) ∘ parts)
    (fun b hb hbne => List.filter_eq_nil_iff.mpr (fun r hr => by
      simp [hlab b hb r hr, hbne]))]
  exact List.filter_eq_self.mpr (fun r hr => by simp [hlab lbl hmem r hr])

theorem filter_label_flatten_not_mem {α : Type} (labelOf : α → String)
    {labels : List String} (parts : String → List α)
    (hlab : ∀ l' ∈ labels, ∀ r ∈ parts l', labelOf r = l')
    {lbl : String} (hnotmem : lbl ∉ labels) :
    ((labels.map parts).flatten).filter (fun r => decide (labelOf r = lbl))
      = [] := by
  rw [List.filter_flatten, List.map_map, List.flatten_eq_nil_iff]
  intro x hx
  obtain ⟨b, hb, rfl⟩ := List.mem_map.mp hx
  refine List.filter_eq_nil_iff.mpr (fun r hr => ?_)
  have hbl : b ≠ lbl := fun h => hnotmem (h ▸ hb)
  simp [hlab b hb r hr, hbl]

/-! ## Claim C1: the three splits partition the input dataframe -/

/-- The partition property claimed of `split_to_train_val_test`: the three
outputs together are exactly the rows of `df`, no row appears in more than
one of them, and their sizes sum to the size of `df`. -/
def SplitIsPartition (df train val test : List Row) : Prop :=
  (train ++ val ++ test).Perm df ∧
  (∀ r ∈ train, r.idx ∉ val.map Row.idx ∧ r.idx ∉ test.map Row.idx) ∧
  (∀ r ∈ val, r.idx ∉ test.map Row.idx) ∧
  train.length + val.length + test.length = df.length

/-- C1. For every input dataframe whose row indices are pairwise
distinct, the three dataframes returned by `split_to_train_val_test` are
pairwise disjoint and together contain exactly the rows of the input, so
the sum of their sizes equals the number of input rows. -/
theorem split_to_train_val_test_partition (S : Sampler Row) (hS : ValidSampler S)
    (df : List Row) (hnd : (df.map Row.idx).Nodup)
    (splits : ℚ × ℚ × ℚ) (hb : RatioBounds splits) :
    SplitIsPartition df
      (split_to_train_val_test S Row.label Row.idx df splits).1
      (split_to_train_val_test S Row.label Row.idx df splits).2.1
      (split_to_train_val_test S Row.label Row.idx df splits).2.2 := by
  have hperm := (split_perm hS Row.label Row.idx df hnd hb).symm
  set p := split_to_train_val_test S Row.label Row.idx df splits with hp
  have hnodup : ((p.1 ++ p.2.1 ++ p.2.2).map Row.idx).Nodup :=
    List.Perm.nodup (hperm.map Row.idx).symm hnd
  have hmap : ((p.1 ++ p.2.1 ++ p.2.2).map Row.idx)
      = p.1.map Row.idx ++ p.2.1.map Row.idx ++ p.2.2.map Row.idx := by
    simp [List.map_append]
  rw [hmap, List.nodup_append] at hnodup
  obtain ⟨hAB, _, hABC⟩ := hnodup
  rw [List.nodup_append] at hAB
  obtain ⟨_, _, hABdis⟩ := hAB
  refine ⟨hperm, ?_, ?_, ?_⟩
  · intro r hr
    refine ⟨hABdis (List.mem_map_of_mem Row.idx hr), ?_⟩
    exact hABC (List.mem_append_left _ (List.mem_map_of_mem Row.idx hr))
  · intro r hr
    exact hABC (List.mem_append_right _ (List.mem_map_of_mem Row.idx hr))
  · have := hperm.length_eq
    simp only [List.length_append] at this
    omega

/-- A concrete dataframe with distinct indices, for the witness. -/
def dfC1 : List Row := [⟨0, "a", "x"⟩, ⟨1, "a", "y"⟩, ⟨2, "b", "z"⟩]

theorem split_to_train_val_test_partition_witness :
    SplitIsPartition dfC1
      (split_to_train_val_test takeSampler Row.label Row.idx dfC1 SPLIT_RATIOS).1
      (split_to_train_val_test takeSampler Row.label Row.idx dfC1 SPLIT_RATIOS).2.1
      (split_to_train_val_test takeSampler Row.label Row.idx dfC1 SPLIT_RATIOS).2.2 :=
  split_to_train_val_test_partition takeSampler validSampler_takeSampler dfC1
    (by decide) SPLIT_RATIOS ratioBounds_SPLIT_RATIOS

/-! ## Claim C2: stratified sampling without replacement, with exact sizes -/

/-- The per-class property claimed of the splitter at
`splits = (0.7, 0.2, 0.1)`, for the class labelled `lbl` (writing `n` for
the number of input rows labelled `lbl`): the rows labelled `lbl` of the
three outputs are drawn without replacement from the input rows labelled
`lbl` (a sub-permutation), the train output holds `round(0.7 * n)` of
them, the test output `round((0.1/0.3) * (n - round(0.7 * n)))` of the
remainder, and the val output the rest. -/
def StratifiedSplitSizes (S : Sampler Row) (df : List Row) (lbl : String) : Prop :=
  ((split_to_train_val_test S Row.label Row.idx df SPLIT_RATIOS).1.filter
      (fun r => decide (r.label = lbl))
    ++ (split_to_train_val_test S Row.label Row.idx df SPLIT_RATIOS).2.1.filter
      (fun r => decide (r.label = lbl))
    ++ (split_to_train_val_test S Row.label Row.idx df SPLIT_RATIOS).2.2.filter
      (fun r => decide (r.label = lbl))).Subperm
    (df.filter (fun r => decide (r.label = lbl))) ∧
  ((split_to_train_val_test S Row.label Row.idx df SPLIT_RATIOS).1.filter
      (fun r => decide (r.label = lbl))).length
    = sampleSize (7/10) (df.filter (fun r => decide (r.label = lbl))).length ∧
  ((split_to_train_val_test S Row.label Row.idx df SPLIT_RATIOS).2.2.filter
      (fun r => decide (r.label = lbl))).length
    = sampleSize ((1/10) / (2/10 + 1/10))
        ((df.filter (fun r => decide (r.label = lbl))).length
          - sampleSize (7/10) (df.filter (fun r => decide (r.label = lbl))).length) ∧
  ((split_to_train_val_test S Row.label Row.idx df SPLIT_RATIOS).2.1.filter
      (fun r => decide (r.label = lbl))).length
    = (df.filter (fun r => decide (r.label = lbl))).length
      - sampleSize (7/10) (df.filter (fun r => decide (r.label = lbl))).length
      - ((split_to_train_val_test S Row.label Row.idx df SPLIT_RATIOS).2.2.filter
          (fun r => decide (r.label = lbl))).length

/-- A dataframe with a duplicated pandas index label: `df.drop(train.index)`
then removes more rows than were sampled. -/
def dfDupIdx : List Row := [⟨0, "a", "x"⟩, ⟨0, "a", "y"⟩]

theorem sampleSize_seven_tenths_two : sampleSize (7/10 : ℚ) 2 = 1 := by
  unfold sampleSize pyRound
  norm_num

theorem sampleSize_one_one : sampleSize (1 : ℚ) 1 = 1 := by
  unfold sampleSize pyRound
  norm_num

/-- Concrete evaluation of the splitter on `dfDupIdx` with the
take-the-first-rows sampler: train samples one of the two rows, the `drop`
by the duplicated index label 0 then removes both rows, leaving val and
test empty. -/
theorem split_dfDupIdx_eval :
    split_to_train_val_test takeSampler Row.label Row.idx dfDupIdx SPLIT_RATIOS
      = ([⟨0, "a", "x"⟩], [], []) := by
  unfold split_to_train_val_test splitLabel
  simp only [dfDupIdx, SPLIT_RATIOS, takeSampler, dropByIndex, uniqueFirst, uniqueFirstF,
    List.map, List.filter, List.length, sampleSize_seven_tenths_two, sampleSize_zero,
    sampleSize_one_one]
  norm_num [sampleSize_seven_tenths_two, sampleSize_zero, sampleSize_one_one, List.flatten]

/-- C2 counterexample. On a dataframe whose row indices are not
pairwise distinct the claimed sizes fail: with two rows of label "a"
sharing index 0, train samples one row, `drop` then removes *both* rows, so
val ends up empty although the claim predicts it receives the one
remaining row. -/
theorem stratified_split_sizes_counterexample :
    ValidSampler (takeSampler (α := Row)) ∧
      ¬ StratifiedSplitSizes takeSampler dfDupIdx "a" := by
  refine ⟨validSampler_takeSampler, fun h => ?_⟩
  have h4 := h.2.2.2
  rw [split_dfDupIdx_eval] at h4
  have h5 : (0 : ℕ) = 2 - sampleSize (7/10 : ℚ) 2 - 0 := h4
  rw [sampleSize_seven_tenths_two] at h5
  omega

/-- C2, amended with the hypothesis that the input indices are pairwise distinct. For every input
dataframe whose row indices are pairwise distinct and every label, the
splitter draws the rows of that label without replacement from the input
rows of that label, train receiving `round(0.7*n)` of them, test
`round((0.1/0.3)*(n - round(0.7*n)))` of the remainder, and val the rest. -/
theorem stratified_split_sizes (S : Sampler Row) (hS : ValidSampler S)
    (df : List Row) (hnd : (df.map Row.idx).Nodup) (lbl : String) :
    StratifiedSplitSizes S df lbl := by
  have hbnd := ratioBounds_SPLIT_RATIOS
  have hndl : ∀ l' : String,
      ((df.filter (fun r => decide (r.label = l'))).map Row.idx).Nodup := fun l' =>
    List.Nodup.sublist (List.Sublist.map Row.idx (List.filter_sublist df)) hnd
  have hspec := fun l' : String => splitLabel_spec hS Row.idx hbnd
    (df.filter (fun r => decide (r.label = l'))) (hndl l')
  -- every row of a per-label piece carries that label
  have hlabAll : ∀ l' : String, ∀ r,
      r ∈ (splitLabel S Row.idx SPLIT_RATIOS
            (df.filter (fun r => decide (r.label = l')))).1
          ++ (splitLabel S Row.idx SPLIT_RATIOS
            (df.filter (fun r => decide (r.label = l')))).2.1
          ++ (splitLabel S Row.idx SPLIT_RATIOS
            (df.filter (fun r => decide (r.label = l')))).2.2 →
      r.label = l' := by
    intro l' r hr
    have hr' : r ∈ df.filter (fun r => decide (r.label = l')) :=
      ((hspec l').1.mem_iff).mpr hr
    simpa using (List.mem_filter.mp hr').2
  have hp1 : (split_to_train_val_test S Row.label Row.idx df SPLIT_RATIOS).1
      = ((uniqueFirst (df.map Row.label)).map
          (fun l' => (splitLabel S Row.idx SPLIT_RATIOS
            (df.filter (fun r => decide (r.label = l')))).1)).flatten := by
    rw [split_eq_parts hS, List.map_map]
    rfl
  have hp2 : (split_to_train_val_test S Row.label Row.idx df SPLIT_RATIOS).2.1
      = ((uniqueFirst (df.map Row.label)).map
          (fun l' => (splitLabel S Row.idx SPLIT_RATIOS
            (df.filter (fun r => decide (r.label = l')))).2.1)).flatten := by
    rw [split_eq_parts hS]
    simp only [List.map_map]
    rfl
  have hp3 : (split_to_train_val_test S Row.label Row.idx df SPLIT_RATIOS).2.2
      = ((uniqueFirst (df.map Row.label)).map
          (fun l' => (splitLabel S Row.idx SPLIT_RATIOS
            (df.filter (fun r => decide (r.label = l')))).2.2)).flatten := by
    rw [split_eq_parts hS]
    simp only [List.map_map]
    rfl
  have hlab1 : ∀ l' ∈ uniqueFirst (df.map Row.label),
      ∀ r ∈ (splitLabel S Row.idx SPLIT_RATIOS
        (df.filter (fun r => decide (r.label = l')))).1, r.label = l' :=
    fun l' _ r hr => hlabAll l' r
      (List.mem_append_left _ (List.mem_append_left _ hr))
  have hlab2 : ∀ l' ∈ uniqueFirst (df.map Row.label),
      ∀ r ∈ (splitLabel S Row.idx SPLIT_RATIOS
        (df.filter (fun r => decide (r.label = l')))).2.1, r.label = l' :=
    fun l' _ r hr => hlabAll l' r
      (List.mem_append_left _ (List.mem_append_right _ hr))
  have hlab3 : ∀ l' ∈ uniqueFirst (df.map Row.label),
      ∀ r ∈ (splitLabel S Row.idx SPLIT_RATIOS
        (df.filter (fun r => decide (r.label = l')))).2.2, r.label = l' :=
    fun l' _ r hr => hlabAll l' r (List.mem_append_right _ hr)
  by_cases hmem : lbl ∈ uniqueFirst (df.map Row.label)
  · -- the label occurs in the dataframe: the filters recover the per-label pieces
    have htr := filter_label_flatten_mem Row.label (uniqueFirst_nodup _)
      (fun l' => (splitLabel S Row.idx SPLIT_RATIOS
        (df.filter (fun r => decide (r.label = l')))).1) hlab1 hmem
    have hva := filter_label_flatten_mem Row.label (uniqueFirst_nodup _)
      (fun l' => (splitLabel S Row.idx SPLIT_RATIOS
        (df.filter (fun r => decide (r.label = l')))).2.1) hlab2 hmem
    have hte := filter_label_flatten_mem Row.label (uniqueFirst_nodup _)
      (fun l' => (splitLabel S Row.idx SPLIT_RATIOS
        (df.filter (fun r => decide (r.label = l')))).2.2) hlab3 hmem
    refine ⟨?_, ?_, ?_, ?_⟩
    · rw [hp1, hp2, hp3, htr, hva, hte]
      exact ((hspec lbl).1.symm).subperm
    · rw [hp1, htr]
      exact (hspec lbl).2.1
    · rw [hp3, hte]
      exact (hspec lbl).2.2
    · rw [hp2, hva, hp3, hte]
      have hlen := (hspec lbl).1.length_eq
      simp only [List.length_append] at hlen
      have ha : (splitLabel S Row.idx SPLIT_RATIOS
          (df.filter (fun r => decide (r.label = lbl)))).1.length
          = sampleSize (7/10)
              (df.filter (fun r => decide (r.label = lbl))).length :=
        (hspec lbl).2.1
      show (splitLabel S Row.idx SPLIT_RATIOS
          (df.filter (fun r => decide (r.label = lbl)))).2.1.length
        = (df.filter (fun r => decide (r.label = lbl))).length
          - sampleSize (7/10)
              (df.filter (fun r => decide (r.label = lbl))).length
          - (splitLabel S Row.idx SPLIT_RATIOS
              (df.filter (fun r => decide (r.label = lbl)))).2.2.length
      omega
  · -- the label does not occur: all four quantities are zero
    have hempty : df.filter (fun r => decide (r.label = lbl)) = [] := by
      refine List.filter_eq_nil_iff.mpr (fun r hr => ?_)
      simp only [decide_eq_true_eq]
      exact fun hrl => hmem (mem_uniqueFirst.mpr (hrl ▸ List.mem_map_of_mem Row.label hr))
    have htr := filter_label_flatten_not_mem Row.label
      (fun l' => (splitLabel S Row.idx SPLIT_RATIOS
        (df.filter (fun r => decide (r.label = l')))).1) hlab1 hmem
    have hva := filter_label_flatten_not_mem Row.label
      (fun l' => (splitLabel S Row.idx SPLIT_RATIOS
        (df.filter (fun r => decide (r.label = l')))).2.1) hlab2 hmem
    have hte := filter_label_flatten_not_mem Row.label
      (fun l' => (splitLabel S Row.idx SPLIT_RATIOS
        (df.filter (fun r => decide (r.label = l')))).2.2) hlab3 hmem
    refine ⟨?_, ?_, ?_, ?_⟩
    · rw [hp1, hp2, hp3, htr, hva, hte, hempty]
      simp
    · rw [hp1, htr, hempty]
      simp [sampleSize_zero]
    · rw [hp3, hte, hempty]
      simp [sampleSize_zero]
    · rw [hp2, hva, hp3, hte, hempty]
      simp

theorem stratified_split_sizes_witness :
    StratifiedSplitSizes takeSampler dfC1 "a" :=
  stratified_split_sizes takeSampler validSampler_takeSampler dfC1 (by decide) "a"

/-! ## The dataframe preparation pipeline `get_train_val_dataframes` -/

/-- A row of `images.txt`: numeric image id, relative file path. -/
structure ImageRec where
  image_pretty_name : ℕ
  image_file_name : String
deriving DecidableEq, Repr

/-- A row of `image_class_labels.txt`: numeric image id, original class id. -/
structure LabelRec where
  image_pretty_name : ℕ
  orig_class_id : ℕ
deriving DecidableEq, Repr

/-- A row of the fully prepared dataframe handed to the splitter
(`image_pretty_name` has been dropped, `idx` is the reset range index). -/
structure FullRow where
  idx : ℕ
  image_file_name : String
  orig_class_id : ℕ
  class_id : String
  class_name : String
deriving DecidableEq, Repr

def EXCLUDE_IMAGE_LIST : List String := ["087.Mallard/Mallard_0130_76836.jpg"]

/-- The merged table: rows of `images.txt` whose file name is not in
`EXCLUDE_IMAGE_LIST`, inner-joined with `image_class_labels.txt` on
`image_pretty_name`, as `(image_file_name, orig_class_id)` pairs. -/
def mergedTable (images : List ImageRec) (labels : List LabelRec) :
    List (String × ℕ) :=
  (images.filter (fun ir => decide (ir.image_file_name ∉ EXCLUDE_IMAGE_LIST))).flatMap
    (fun ir =>
      (labels.filter
        (fun lr => decide (lr.image_pretty_name = ir.image_pretty_name))).map
        (fun lr => (ir.image_file_name, lr.orig_class_id)))

/-- The optional `SAMPLE_ONLY` restriction to the class ids in `CLASSES`. -/
def filteredTable (images : List ImageRec) (labels : List LabelRec)
    (sampleOnly : Bool) (classes : List ℕ) : List (String × ℕ) :=
  if sampleOnly then
    (mergedTable images labels).filter (fun pr => decide (pr.2 ∈ classes))
  else mergedTable images labels

/-- Model of `sorted(full_df['orig_class_id'].drop_duplicates())`. -/
def sortedUniqueClasses (images : List ImageRec) (labels : List LabelRec)
    (sampleOnly : Bool) (classes : List ℕ) : List ℕ :=
  List.insertionSort (· ≤ ·)
    (uniqueFirst ((filteredTable images labels sampleOnly classes).map (fun pr => pr.2)))

/-- The `id_to_one_based` dict: the `i`-th smallest retained class id
(one-based) maps to the string `str(i)`. -/
def id_to_one_based (ks : List ℕ) (c : ℕ) : String :=
  toString (ks.indexOf c + 1)

/-- Model of `get_class_name(fn) = fn.split('/')[0]`. -/
def get_class_name (fn : String) : String :=
  (fn.splitOn "/").headD ""

/-- The fully prepared dataframe: merged, filtered, `class_id` remapped via
`id_to_one_based`, `class_name` parsed from the file name, index reset to
consecutive positions. -/
def fullTable (images : List ImageRec) (labels : List LabelRec)
    (sampleOnly : Bool) (classes : List ℕ) : List FullRow :=
  ((filteredTable images labels sampleOnly classes).enum).map
    (fun pr =>
      { idx := pr.1
        image_file_name := pr.2.1
        orig_class_id := pr.2.2
        class_id := id_to_one_based
          (sortedUniqueClasses images labels sampleOnly classes) pr.2.2
        class_name := get_class_name pr.2.1 })

/-- The pipeline `get_train_val_dataframes`: prepare the dataframe and split it on the
`class_id` column with ratios `SPLIT_RATIOS`. -/
def get_train_val_dataframes (S : Sampler FullRow) (images : List ImageRec)
    (labels : List LabelRec) (sampleOnly : Bool) (classes : List ℕ) :
    List FullRow × List FullRow × List FullRow :=
  split_to_train_val_test S FullRow.class_id FullRow.idx
    (fullTable images labels sampleOnly classes) SPLIT_RATIOS

/-! ## Facts about the pipeline -/

theorem fullTable_idx_nodup (images : List ImageRec) (labels : List LabelRec)
    (sampleOnly : Bool) (classes : List ℕ) :
    ((fullTable images labels sampleOnly classes).map FullRow.idx).Nodup := by
  unfold fullTable
  rw [List.map_map]
  have h : (FullRow.idx ∘ fun pr : ℕ × String × ℕ =>
      ({ idx := pr.1
         image_file_name := pr.2.1
         orig_class_id := pr.2.2
         class_id := id_to_one_based
           (sortedUniqueClasses images labels sampleOnly classes) pr.2.2
         class_name := get_class_name pr.2.1 } : FullRow))
      = Prod.fst := rfl
  rw [h, List.enum_map_fst]
  exact List.nodup_range _

theorem mem_fullTable_of_mem_output {S : Sampler FullRow} (hS : ValidSampler S)
    (images : List ImageRec) (labels : List LabelRec) (sampleOnly : Bool)
    (classes : List ℕ) {r : FullRow}
    (hr : r ∈ (get_train_val_dataframes S images labels sampleOnly classes).1
      ∨ r ∈ (get_train_val_dataframes S images labels sampleOnly classes).2.1
      ∨ r ∈ (get_train_val_dataframes S images labels sampleOnly classes).2.2) :
    r ∈ fullTable images labels sampleOnly classes := by
  have hperm := split_perm hS FullRow.class_id FullRow.idx
    (fullTable images labels sampleOnly classes)
    (fullTable_idx_nodup images labels sampleOnly classes) ratioBounds_SPLIT_RATIOS
  refine hperm.mem_iff.mpr ?_
  unfold get_train_val_dataframes at hr
  rcases hr with h | h | h
  · exact List.mem_append_left _ (List.mem_append_left _ h)
  · exact List.mem_append_left _ (List.mem_append_right _ h)
  · exact List.mem_append_right _ h

theorem fullTable_row_shape (images : List ImageRec) (labels : List LabelRec)
    (sampleOnly : Bool) (classes : List ℕ) {r : FullRow}
    (hr : r ∈ fullTable images labels sampleOnly classes) :
    (r.image_file_name, r.orig_class_id)
        ∈ filteredTable images labels sampleOnly classes ∧
      r.class_id = id_to_one_based
        (sortedUniqueClasses images labels sampleOnly classes) r.orig_class_id := by
  unfold fullTable at hr
  obtain ⟨pr, hpr, rfl⟩ := List.mem_map.mp hr
  obtain ⟨i, x⟩ := pr
  obtain ⟨hlt, heq⟩ := List.mem_enum hpr
  exact ⟨heq ▸ List.getElem_mem hlt, rfl⟩

theorem sortedUniqueClasses_sorted (images : List ImageRec)
    (labels : List LabelRec) (sampleOnly : Bool) (classes : List ℕ) :
    List.Sorted (· ≤ ·) (sortedUniqueClasses images labels sampleOnly classes) :=
  List.sorted_insertionSort _ _

theorem sortedUniqueClasses_nodup (images : List ImageRec)
    (labels : List LabelRec) (sampleOnly : Bool) (classes : List ℕ) :
    (sortedUniqueClasses images labels sampleOnly classes).Nodup :=
  List.Perm.nodup (List.perm_insertionSort _ _).symm (uniqueFirst_nodup _)

theorem mem_sortedUniqueClasses {images : List ImageRec} {labels : List LabelRec}
    {sampleOnly : Bool} {classes : List ℕ} {c : ℕ} :
    c ∈ sortedUniqueClasses images labels sampleOnly classes
      ↔ c ∈ (filteredTable images labels sampleOnly classes).map (fun pr => pr.2) :=
  ((List.perm_insertionSort _ _).mem_iff).trans mem_uniqueFirst

theorem indexOf_get_of_nodup {l : List ℕ} (hnd : l.Nodup) {i : ℕ}
    (h : i < l.length) : l.indexOf (l.get ⟨i, h⟩) = i := by
  have hmem : l.get ⟨i, h⟩ ∈ l := List.get_mem l i h
  have hlt : l.indexOf (l.get ⟨i, h⟩) < l.length := List.indexOf_lt_length.mpr hmem
  have hget : l.get ⟨l.indexOf (l.get ⟨i, h⟩), hlt⟩ = l.get ⟨i, h⟩ :=
    List.indexOf_get hlt
  have := (List.Nodup.get_inj_iff hnd).mp hget
  exact congrArg Fin.val this

/-- The one-based class-id strings "1", ..., "k". -/
def oneBasedStrings (k : ℕ) : List String :=
  (List.range k).map (fun i => toString (i + 1))

/-! ## Claim C5: class ids of the outputs lie in the known class set -/

/-- C5. The distinct retained original class ids, in increasing numeric
order, are remapped to the consecutive one-based strings "1" through "k"
(conjuncts 1 and 2: the i-th smallest retained class maps to `str(i+1)`,
and the remapping preserves numeric order), and every `class_id` in the
train, val and test outputs of `get_train_val_dataframes` is one of those
k strings (conjunct 3). -/
theorem one_based_class_ids (S : Sampler FullRow) (hS : ValidSampler S)
    (images : List ImageRec) (labels : List LabelRec) (sampleOnly : Bool)
    (classes : List ℕ) :
    (∀ i (h : i < (sortedUniqueClasses images labels sampleOnly classes).length),
      id_to_one_based (sortedUniqueClasses images labels sampleOnly classes)
        ((sortedUniqueClasses images labels sampleOnly classes).get ⟨i, h⟩)
        = toString (i + 1)) ∧
    (∀ c ∈ sortedUniqueClasses images labels sampleOnly classes,
      ∀ c' ∈ sortedUniqueClasses images labels sampleOnly classes, c < c' →
        (sortedUniqueClasses images labels sampleOnly classes).indexOf c
          < (sortedUniqueClasses images labels sampleOnly classes).indexOf c') ∧
    (∀ r : FullRow,
      (r ∈ (get_train_val_dataframes S images labels sampleOnly classes).1
        ∨ r ∈ (get_train_val_dataframes S images labels sampleOnly classes).2.1
        ∨ r ∈ (get_train_val_dataframes S images labels sampleOnly classes).2.2) →
      r.class_id ∈ oneBasedStrings
        (sortedUniqueClasses images labels sampleOnly classes).length) := by
  refine ⟨?_, ?_, ?_⟩
  · intro i h
    unfold id_to_one_based
    rw [indexOf_get_of_nodup (sortedUniqueClasses_nodup images labels sampleOnly classes) h]
  · intro c hc c' hc' hlt
    have hi : (sortedUniqueClasses images labels sampleOnly classes).indexOf c
        < (sortedUniqueClasses images labels sampleOnly classes).length :=
      List.indexOf_lt_length.mpr hc
    have hj : (sortedUniqueClasses images labels sampleOnly classes).indexOf c'
        < (sortedUniqueClasses images labels sampleOnly classes).length :=
      List.indexOf_lt_length.mpr hc'
    have hgi := List.indexOf_get hi
    have hgj := List.indexOf_get hj
    by_contra hcon
    push_neg at hcon
    rcases lt_or_eq_of_le hcon with hlt2 | heq
    · have hrel := (sortedUniqueClasses_sorted images labels sampleOnly
        classes).rel_get_of_lt
        (a := ⟨(sortedUniqueClasses images labels sampleOnly classes).indexOf c', hj⟩)
        (b := ⟨(sortedUniqueClasses images labels sampleOnly classes).indexOf c, hi⟩)
        (Fin.mk_lt_mk.mpr hlt2)
      rw [hgi, hgj] at hrel
      omega
    · have : c' = c := by
        rw [← hgi, ← hgj]
        exact congrArg _ (Fin.ext heq)
      omega
  · intro r hr
    have hmem := mem_fullTable_of_mem_output hS images labels sampleOnly classes hr
    obtain ⟨hpr, hcid⟩ := fullTable_row_shape images labels sampleOnly classes hmem
    have hcol : r.orig_class_id
        ∈ (filteredTable images labels sampleOnly classes).map (fun pr => pr.2) :=
      List.mem_map.mpr ⟨(r.image_file_name, r.orig_class_id), hpr, rfl⟩
    have hks : r.orig_class_id ∈ sortedUniqueClasses images labels sampleOnly classes :=
      mem_sortedUniqueClasses.mpr hcol
    have hidx : (sortedUniqueClasses images labels sampleOnly classes).indexOf
        r.orig_class_id
        < (sortedUniqueClasses images labels sampleOnly classes).length :=
      List.indexOf_lt_length.mpr hks
    rw [hcid]
    unfold id_to_one_based oneBasedStrings
    exact List.mem_map.mpr
      ⟨(sortedUniqueClasses images labels sampleOnly classes).indexOf r.orig_class_id,
       List.mem_range.mpr hidx, rfl⟩

/-- Concrete input files for the pipeline witnesses. -/
def imagesW : List ImageRec :=
  [⟨1, "013.Sparrow/img1.jpg"⟩, ⟨2, "017.Cardinal/img2.jpg"⟩,
   ⟨3, "087.Mallard/Mallard_0130_76836.jpg"⟩]

def labelsW : List LabelRec := [⟨1, 13⟩, ⟨2, 17⟩, ⟨3, 87⟩]

theorem one_based_class_ids_witness :
    (∀ i (h : i < (sortedUniqueClasses imagesW labelsW true [13, 17]).length),
      id_to_one_based (sortedUniqueClasses imagesW labelsW true [13, 17])
        ((sortedUniqueClasses imagesW labelsW true [13, 17]).get ⟨i, h⟩)
        = toString (i + 1)) ∧
    (∀ c ∈ sortedUniqueClasses imagesW labelsW true [13, 17],
      ∀ c' ∈ sortedUniqueClasses imagesW labelsW true [13, 17], c < c' →
        (sortedUniqueClasses imagesW labelsW true [13, 17]).indexOf c
          < (sortedUniqueClasses imagesW labelsW true [13, 17]).indexOf c') ∧
    (∀ r : FullRow,
      (r ∈ (get_train_val_dataframes takeSampler imagesW labelsW true [13, 17]).1
        ∨ r ∈ (get_train_val_dataframes takeSampler imagesW labelsW true [13, 17]).2.1
        ∨ r ∈ (get_train_val_dataframes takeSampler imagesW labelsW true [13, 17]).2.2) →
      r.class_id ∈ oneBasedStrings
        (sortedUniqueClasses imagesW labelsW true [13, 17]).length) :=
  one_based_class_ids takeSampler validSampler_takeSampler imagesW labelsW true [13, 17]

/-! ## Claim C9: excluded image files never reach the outputs -/

theorem filteredTable_subset (images : List ImageRec) (labels : List LabelRec)
    (sampleOnly : Bool) (classes : List ℕ) :
    ∀ pr ∈ filteredTable images labels sampleOnly classes,
      pr ∈ mergedTable images labels := by
  intro pr hpr
  unfold filteredTable at hpr
  cases sampleOnly with
  | false => simpa using hpr
  | true =>
      have h' : pr ∈ mergedTable images labels ∧ pr.2 ∈ classes := by
        simpa using hpr
      exact h'.1

/-- C9. Every file name in `EXCLUDE_IMAGE_LIST` is removed before the
merge, so no row of the merged table carries an excluded file name
(conjunct 1), and no row of any of the three outputs of
`get_train_val_dataframes` does either (conjunct 2). -/
theorem excluded_images_absent (S : Sampler FullRow) (hS : ValidSampler S)
    (images : List ImageRec) (labels : List LabelRec) (sampleOnly : Bool)
    (classes : List ℕ) :
    (∀ pr ∈ mergedTable images labels, pr.1 ∉ EXCLUDE_IMAGE_LIST) ∧
    (∀ r : FullRow,
      (r ∈ (get_train_val_dataframes S images labels sampleOnly classes).1
        ∨ r ∈ (get_train_val_dataframes S images labels sampleOnly classes).2.1
        ∨ r ∈ (get_train_val_dataframes S images labels sampleOnly classes).2.2) →
      r.image_file_name ∉ EXCLUDE_IMAGE_LIST) := by
  have hmerged : ∀ pr ∈ mergedTable images labels, pr.1 ∉ EXCLUDE_IMAGE_LIST := by
    intro pr hpr
    unfold mergedTable at hpr
    obtain ⟨ir, hir, hpr2⟩ := List.mem_flatMap.mp hpr
    obtain ⟨lr, _, rfl⟩ := List.mem_map.mp hpr2
    have := (List.mem_filter.mp hir).2
    simpa using this
  refine ⟨hmerged, ?_⟩
  intro r hr
  have hmem := mem_fullTable_of_mem_output hS images labels sampleOnly classes hr
  obtain ⟨hpr, _⟩ := fullTable_row_shape images labels sampleOnly classes hmem
  exact hmerged _ (filteredTable_subset images labels sampleOnly classes _ hpr)

theorem excluded_images_absent_witness :
    (∀ pr ∈ mergedTable imagesW labelsW, pr.1 ∉ EXCLUDE_IMAGE_LIST) ∧
    (∀ r : FullRow,
      (r ∈ (get_train_val_dataframes takeSampler imagesW labelsW true [13, 17]).1
        ∨ r ∈ (get_train_val_dataframes takeSampler imagesW labelsW true [13, 17]).2.1
        ∨ r ∈ (get_train_val_dataframes takeSampler imagesW labelsW true [13, 17]).2.2) →
      r.image_file_name ∉ EXCLUDE_IMAGE_LIST) :=
  excluded_images_absent takeSampler validSampler_takeSampler imagesW labelsW true [13, 17]

/-! ## Batch-prediction result aggregation (notebook `3_tf_sm_batch_ic`) -/

/-- One batch-prediction result file, as seen by the aggregation loop: the
components of `entry.split('/')` and the parsed value of the JSON
`predictions` field (a list of per-input probability vectors); `none`
models any failure to open, parse or index the JSON. -/
structure BatchFile where
  pathParts : List String
  predictions : Option (List (List ℚ))
deriving DecidableEq, Repr

/-- Model of `float('%.3f' % item)`: round to three decimal places
(half-to-even, as for Python float formatting at these magnitudes). -/
def round3 (q : ℚ) : ℚ := (pyRound (q * 1000) : ℚ) / 1000

/-- The maximum of a list of probabilities (0 for the empty list, which the
loop never reaches because `np.argmax` of an empty array raises). -/
def listMax : List ℚ → ℚ
  | [] => 0
  | [q] => q
  | q :: l => max q (listMax l)

/-- Model of `np.argmax`: the index of the first occurrence of the maximum. -/
def argmaxIdx (l : List ℚ) : ℕ := l.indexOf (listMax l)

/-- The body of the aggregation loop's `try:` block, up to the tally
updates: `some (class_index, actual_index, is_correct)` when the body runs
to completion, `none` when any step raises — a missing path component, a
directory label not in `class_name_list` (`ValueError` from `.index`),
unreadable JSON, `np.argmax` of an empty array (`ValueError`), or
`class_name_list[class_index]` out of range (`IndexError`).  All of these
raise before any of the four tallies is touched. -/
def processEntry (classNames : List String) (e : BatchFile) :
    Option (ℕ × ℕ × Bool) :=
  match e.pathParts.get? 1 with
  | none => none
  | some actual_label =>
    if actual_label ∈ classNames then
      let actual_index := classNames.indexOf actual_label
      match e.predictions with
      | none => none
      | some preds =>
        let results := preds.flatten.map round3
        if results.isEmpty then none
        else
          let class_index := argmaxIdx results
          match classNames.get? class_index with
          | none => none
          | some predicted_label =>
            some (class_index, actual_index, predicted_label == actual_label)
    else none

/-- The four tallies of the aggregation loop. -/
structure AggState where
  total : ℕ
  correct : ℕ
  predicted : List ℕ
  actual : List ℕ
deriving DecidableEq, Repr

def initAgg : AggState := ⟨0, 0, [], []⟩

/-- One iteration of the loop: on success append to `predicted`/`actual`
and bump the counters, on an exception print and continue (state
unchanged). -/
def stepEntry (classNames : List String) (st : AggState) (e : BatchFile) :
    AggState :=
  match processEntry classNames e with
  | none => st
  | some (ci, ai, isc) =>
      { total := st.total + 1
        correct := if isc then st.correct + 1 else st.correct
        predicted := st.predicted ++ [ci]
        actual := st.actual ++ [ai] }

/-- The whole aggregation loop over the files returned by
`glob.glob('batch_predictions/*/*')`. -/
def aggregate (classNames : List String) (entries : List BatchFile) : AggState :=
  entries.foldl (stepEntry classNames) initAgg

/-- Model of `accuracy = correct / total`: in Python this is integer/integer true
division, which raises `ZeroDivisionError` when `total == 0`; the failure
is modelled as `none`. -/
def accuracy (correct total : ℕ) : Option ℚ :=
  if total = 0 then none else some ((correct : ℚ) / (total : ℚ))

/-! ## Claim C4: a failing file contributes nothing -/

/-- C4. If processing one file raises, the loop continues and that file
contributes nothing: the final tallies equal those for the input with the
file absent. -/
theorem failed_file_skipped (classNames : List String) (e : BatchFile)
    (he : processEntry classNames e = none) (pre post : List BatchFile) :
    aggregate classNames (pre ++ e :: post) = aggregate classNames (pre ++ post) := by
  unfold aggregate
  rw [List.foldl_append, List.foldl_append, List.foldl_cons]
  have hstep : ∀ st : AggState, stepEntry classNames st e = st := by
    intro st
    unfold stepEntry
    rw [he]
  rw [hstep]

/-- A file whose path has no second component: `entry.split('/')[1]`
raises `IndexError`. -/
def badFile : BatchFile := ⟨["only_one_component"], none⟩

theorem failed_file_skipped_witness :
    processEntry ["a"] badFile = none ∧
      aggregate ["a"] ([] ++ badFile :: []) = aggregate ["a"] ([] ++ []) :=
  ⟨rfl, failed_file_skipped ["a"] badFile rfl [] []⟩

/-! ## Claim C7: the tallies stay aligned -/

theorem stepEntry_invariant (classNames : List String) (st : AggState)
    (e : BatchFile)
    (h1 : st.predicted.length = st.actual.length)
    (h2 : st.predicted.length = st.total)
    (h3 : st.correct ≤ st.total) :
    (stepEntry classNames st e).predicted.length
        = (stepEntry classNames st e).actual.length ∧
      (stepEntry classNames st e).predicted.length
        = (stepEntry classNames st e).total ∧
      (stepEntry classNames st e).correct ≤ (stepEntry classNames st e).total := by
  unfold stepEntry
  cases hp : processEntry classNames e with
  | none => exact ⟨h1, h2, h3⟩
  | some v =>
      obtain ⟨ci, ai, isc⟩ := v
      simp only [List.length_append, List.length_cons, List.length_nil]
      refine ⟨by omega, by omega, ?_⟩
      cases isc <;> simp <;> omega

/-- C7. After the loop, `predicted` and `actual` have the same length,
that length is `total`, and `correct ≤ total`, for every input list —
including one containing failing files. -/
theorem aggregate_invariants (classNames : List String)
    (entries : List BatchFile) :
    (aggregate classNames entries).predicted.length
        = (aggregate classNames entries).actual.length ∧
      (aggregate classNames entries).predicted.length
        = (aggregate classNames entries).total ∧
      (aggregate classNames entries).correct
        ≤ (aggregate classNames entries).total := by
  unfold aggregate
  have key : ∀ (es : List BatchFile) (st : AggState),
      st.predicted.length = st.actual.length →
      st.predicted.length = st.total →
      st.correct ≤ st.total →
      ((es.foldl (stepEntry classNames) st).predicted.length
          = (es.foldl (stepEntry classNames) st).actual.length ∧
        (es.foldl (stepEntry classNames) st).predicted.length
          = (es.foldl (stepEntry classNames) st).total ∧
        (es.foldl (stepEntry classNames) st).correct
          ≤ (es.foldl (stepEntry classNames) st).total) := by
    intro es
    induction es with
    | nil => exact fun st h1 h2 h3 => ⟨h1, h2, h3⟩
    | cons e es ih =>
        intro st h1 h2 h3
        rw [List.foldl_cons]
        obtain ⟨g1, g2, g3⟩ := stepEntry_invariant classNames st e h1 h2 h3
        exact ih _ g1 g2 g3
  exact key entries initAgg rfl rfl le_rfl

/-! ## Claim C8: accuracy on an empty tally -/

/-- C8. If no file was processed successfully (`total` still 0 after
the loop), the accuracy computation `correct / total` fails with a
division-by-zero error instead of returning a value. -/
theorem accuracy_fails_on_zero_total (classNames : List String)
    (entries : List BatchFile)
    (h : (aggregate classNames entries).total = 0) :
    accuracy (aggregate classNames entries).correct
      (aggregate classNames entries).total = none := by
  unfold accuracy
  rw [h]
  simp

theorem accuracy_fails_on_zero_total_witness :
    accuracy (aggregate ["a"] []).correct (aggregate ["a"] []).total = none :=
  accuracy_fails_on_zero_total ["a"] [] rfl

/-! ## Claim C3: what the recorded prediction is an argmax of -/

/-- Predicate: `i` is the first argmax of `l`: in range, no element exceeds `l[i]`,
and every earlier element is strictly smaller (`np.argmax` returns the
first maximum). -/
def IsFirstArgmax (l : List ℚ) (i : ℕ) : Prop :=
  i < l.length ∧ (∀ j < l.length, l.getD j 0 ≤ l.getD i 0) ∧
    ∀ j < i, l.getD j 0 < l.getD i 0

theorem le_listMax : ∀ (l : List ℚ), ∀ x ∈ l, x ≤ listMax l := by
  intro l
  induction l with
  | nil => intro x hx; cases hx
  | cons q t ih =>
      intro x hx
      cases t with
      | nil =>
          rcases List.mem_singleton.mp hx with rfl
          exact le_rfl
      | cons r t' =>
          have hmax : listMax (q :: r :: t') = max q (listMax (r :: t')) := rfl
          rw [hmax]
          rcases List.mem_cons.mp hx with rfl | hx'
          · exact le_max_left _ _
          · exact le_trans (ih x hx') (le_max_right _ _)

theorem listMax_mem : ∀ (l : List ℚ), l ≠ [] → listMax l ∈ l := by
  intro l
  induction l with
  | nil => intro h; exact absurd rfl h
  | cons q t ih =>
      intro _
      cases t with
      | nil => exact List.mem_singleton.mpr rfl
      | cons r t' =>
          have hmax : listMax (q :: r :: t') = max q (listMax (r :: t')) := rfl
          rw [hmax]
          rcases le_total (listMax (r :: t')) q with hle | hle
          · rw [max_eq_left hle]
            exact List.mem_cons_self _ _
          · rw [max_eq_right hle]
            exact List.mem_cons_of_mem _ (ih (by simp))

theorem getD_ne_of_lt_indexOf : ∀ (l : List ℚ) (a : ℚ) (j : ℕ),
    j < l.indexOf a → l.getD j 0 ≠ a := by
  intro l
  induction l with
  | nil => intro a j hj; rw [List.indexOf_nil] at hj; omega
  | cons q t ih =>
      intro a j hj
      by_cases hq : q = a
      · subst hq
        rw [List.indexOf_cons_self] at hj
        omega
      · rw [List.indexOf_cons_ne _ hq] at hj
        cases j with
        | zero => simpa using hq
        | succ j => exact ih a j (by omega)

/-- Lemma: `argmaxIdx` really does return the first argmax. -/
theorem isFirstArgmax_argmaxIdx (l : List ℚ) (h : l ≠ []) :
    IsFirstArgmax l (argmaxIdx l) := by
  have hmem : listMax l ∈ l := listMax_mem l h
  have hlt : l.indexOf (listMax l) < l.length := List.indexOf_lt_length.mpr hmem
  have hget : l.getD (l.indexOf (listMax l)) 0 = listMax l := by
    rw [List.getD_eq_getElem l 0 hlt]
    exact List.indexOf_get hlt
  unfold argmaxIdx
  refine ⟨hlt, ?_, ?_⟩
  · intro j hj
    rw [hget, List.getD_eq_getElem l 0 hj]
    exact le_listMax l _ (List.getElem_mem hj)
  · intro j hj
    rw [hget]
    have hne := getD_ne_of_lt_indexOf l (listMax l) j hj
    have hle : l.getD j 0 ≤ listMax l := by
      rw [List.getD_eq_getElem l 0 (lt_trans hj hlt)]
      exact le_listMax l _ (List.getElem_mem _)
    exact lt_of_le_of_ne hle hne

/-- The class names and result file of the C3 analysis: the directory
label is the first class, and the file's second probability exceeds its
first by less than half a thousandth. -/
def cnC3 : List String := ["a", "b"]

def fileC3 : BatchFile :=
  ⟨["batch_predictions", "a", "img.jpg.out"], some [[1/10, 10001/100000]]⟩

theorem round3_tenth : round3 ((1:ℚ)/10) = 1/10 := by
  unfold round3 pyRound
  norm_num

theorem round3_near_tenth : round3 ((10001:ℚ)/100000) = 1/10 := by
  unfold round3 pyRound
  norm_num

theorem round3_tenth_inv : round3 ((10:ℚ)⁻¹) = 10⁻¹ := by
  rw [← one_div]
  exact round3_tenth

theorem argmaxIdx_pair : argmaxIdx [(1:ℚ)/10, 1/10] = 0 := by
  unfold argmaxIdx
  have h : listMax [(1:ℚ)/10, 1/10] = 1/10 := by
    show max ((1:ℚ)/10) (listMax [(1:ℚ)/10]) = 1/10
    rw [show listMax [(1:ℚ)/10] = 1/10 from rfl]
    exact max_self _
  rw [h]
  exact List.indexOf_cons_self _ _

theorem argmaxIdx_pair_inv : argmaxIdx [(10:ℚ)⁻¹, 10⁻¹] = 0 := by
  have h : ((10:ℚ)⁻¹) = 1/10 := by norm_num
  rw [h]
  exact argmaxIdx_pair

/-- The file `fileC3` is processed successfully: both probabilities round to 0.100,
`np.argmax` breaks the tie at index 0, the directory label "a" is found at
index 0, and the file is counted correct. -/
theorem processEntry_fileC3_eval : processEntry cnC3 fileC3 = some (0, 0, true) := by
  unfold processEntry fileC3 cnC3
  simp [round3_tenth, round3_near_tenth, round3_tenth_inv, argmaxIdx_pair_inv,
    List.indexOf_cons_self]

/-- C3 counterexample. The aggregation loop rounds each probability to
three decimals before the argmax: on the file whose predictions are
`[0.1, 0.10001]` it records class index 0, but 0 is not an argmax of the
probabilities listed in the file (the entry at index 1 is strictly
larger). -/
theorem batch_argmax_counterexample :
    processEntry cnC3 fileC3 = some (0, 0, true) ∧
      ¬ IsFirstArgmax ([[(1:ℚ)/10, 10001/100000]] : List (List ℚ)).flatten 0 := by
  refine ⟨processEntry_fileC3_eval, fun h => ?_⟩
  have h2 := h.2.1 1 (by decide)
  have h3 : (10001:ℚ)/100000 ≤ 1/10 := h2
  norm_num at h3

/-- C3, amended to take the argmax of the rounded probabilities. For every
successfully processed file, the recorded class index is the first argmax
of the file's probabilities after each is rounded to three decimal places,
the recorded actual index is the position of the directory label in the
class-name list, and the file counts as correct exactly when the predicted
class name equals the directory label. -/
theorem batch_argmax_of_rounded (classNames : List String) (e : BatchFile)
    (ci ai : ℕ) (isc : Bool)
    (hp : processEntry classNames e = some (ci, ai, isc))
    (preds : List (List ℚ)) (hpreds : e.predictions = some preds)
    (lbl : String) (hlbl : e.pathParts.get? 1 = some lbl) :
    IsFirstArgmax (preds.flatten.map round3) ci ∧
      ai = classNames.indexOf lbl ∧
      (isc = true ↔ classNames.get? ci = some lbl) := by
  unfold processEntry at hp
  rw [hlbl, hpreds] at hp
  dsimp only at hp
  split_ifs at hp with hmem hemp
  cases hg : classNames.get? (argmaxIdx (preds.flatten.map round3)) with
    | none =>
        rw [hg] at hp
        simp at hp
    | some pl =>
        rw [hg] at hp
        dsimp only at hp
        simp only [Option.some.injEq, Prod.mk.injEq] at hp
        obtain ⟨h1, h2, h3⟩ := hp
        subst h1
        subst h2
        subst h3
        refine ⟨?_, rfl, ?_⟩
        · refine isFirstArgmax_argmaxIdx _ (fun hnil => hemp ?_)
          rw [hnil]
          rfl
        · rw [hg]
          simp [beq_iff_eq]

theorem batch_argmax_of_rounded_witness :
    IsFirstArgmax (([[(1:ℚ)/10, 10001/100000]] : List (List ℚ)).flatten.map round3) 0 ∧
      0 = cnC3.indexOf "a" ∧
      (true = true ↔ cnC3.get? 0 = some "a") :=
  batch_argmax_of_rounded cnC3 fileC3 0 0 true processEntry_fileC3_eval
    [[1/10, 10001/100000]] rfl "a" rfl

/-! ## Claim C6: order of the batch-transform steps -/

/-- The externally visible steps of the batch-transform portion of the
notebook, one constructor per operation of interest. -/
inductive BatchStep where
  | createModel      -- client.create_model(**model_params)
  | transformSubmit  -- transformer.transform(data=..., content_type=...)
  | transformWait    -- transformer.wait()
  | downloadResults  -- aws s3 cp --recursive $output_data_path ./batch_predictions
  | readPredictions  -- the aggregation loop reading ./batch_predictions/*/*
deriving DecidableEq, Repr

/-- The straight-line sequence of those steps in the order the notebook's
cells issue them in a run (the notebook is sequential; each of these calls
returns before the next cell runs, `transformer.wait` blocking until the
job completes). -/
def batchCellTrace : List BatchStep :=
  [BatchStep.createModel, BatchStep.transformSubmit, BatchStep.transformWait,
   BatchStep.downloadResults, BatchStep.readPredictions]

/-- C6. Exactly one `transformer.transform` submission is issued per
run; the blocking `transformer.wait` follows it, and the prediction
outputs are downloaded and read only after the wait has finished. -/
theorem batch_transform_order :
    batchCellTrace.count BatchStep.transformSubmit = 1 ∧
    batchCellTrace.indexOf BatchStep.transformSubmit
      < batchCellTrace.indexOf BatchStep.transformWait ∧
    batchCellTrace.indexOf BatchStep.transformWait
      < batchCellTrace.indexOf BatchStep.downloadResults ∧
    batchCellTrace.indexOf BatchStep.downloadResults
      < batchCellTrace.indexOf BatchStep.readPredictions := by
  decide

end Workshop
